import Mathlib

/-!
Verification of the waitlist storage subsystem and HTTP route layer of the
CodeWithFriends landing-page repository.

The embedding models:
- the `WaitlistEmail` / `User` records of shared/schema.ts;
- `MemStorage` (server storage, in-memory variant): two JavaScript `Map`s,
  modelled as association lists in insertion order (a JS `Map` keeps
  insertion order; `set` on an existing key updates the value in place,
  `set` on a fresh key appends; keys are unique);
- `DatabaseStorage` (persistent variant): the waitlist table as a list of
  rows, with the schema's unique constraints on `email` and
  `confirmation_token` checked on insert;
- the Express route handlers of server/routes.ts.

Nondeterministic inputs of the source (`randomUUID()`, `new Date()`,
`process.env.NODE_ENV`) are passed as explicit parameters; timestamps are
natural numbers.
-/

set_option autoImplicit false

namespace Waitlist

/-- A row of the `waitlist_emails` table / a value of the in-memory map
(shared/schema.ts: id, email, created_at, confirmed, confirmation_token,
confirmed_at). -/
structure WaitlistEmail where
  id : String
  email : String
  createdAt : Nat
  confirmed : Bool
  confirmationToken : Option String
  confirmedAt : Option Nat
  deriving DecidableEq, Repr

/-- A row of the `users` table (id, username, password). -/
structure User where
  id : String
  username : String
  password : String
  deriving DecidableEq, Repr

/-! ### JavaScript `Map` as an association list in insertion order -/

/-- `Map.get`: value at the key, if present (keys of a JS `Map` are unique,
so the first occurrence is the only one). -/
def mapGet {α : Type} (m : List (String × α)) (k : String) : Option α :=
  match m with
  | [] => none
  | (k', v') :: rest => if k' = k then some v' else mapGet rest k

/-- `Map.set`: replace the value at an existing key in place (a JS `Map`
keeps the key's original insertion position), or append a fresh key. -/
def mapSet {α : Type} (m : List (String × α)) (k : String) (v : α) :
    List (String × α) :=
  match m with
  | [] => [(k, v)]
  | (k', v') :: rest =>
      if k' = k then (k, v) :: rest else (k', v') :: mapSet rest k v

/-- The keys of the map, in insertion order. -/
def keysOf {α : Type} (m : List (String × α)) : List String :=
  m.map Prod.fst

/-- The keys of a well-formed JS `Map` are unique. -/
def KeysNodup {α : Type} (m : List (String × α)) : Prop :=
  (keysOf m).Nodup

instance {α : Type} (m : List (String × α)) : Decidable (KeysNodup m) := by
  unfold KeysNodup; infer_instance

/-! ### MemStorage (server storage file, in-memory implementation) -/

/-- The private state of `MemStorage`: the `users` map keyed by id and the
`waitlistEmails` map keyed by email. -/
structure MemState where
  users : List (String × User)
  waitlistEmails : List (String × WaitlistEmail)
  deriving DecidableEq, Repr

/-- `new MemStorage()`: both maps empty. -/
def emptyMemState : MemState := ⟨[], []⟩

namespace MemStorage

/-- `MemStorage.addToWaitlist`: builds the entry with a generated id and
confirmation token, `createdAt` now, `confirmed` false, `confirmedAt` null,
and stores it with `this.waitlistEmails.set(email, entry)`.  There is no
duplicate check: `set` on an existing email replaces that entry.  The
generated `randomUUID()` values and the clock are the `id`, `token`, `now`
parameters. -/
def addToWaitlist (s : MemState) (email id token : String) (now : Nat) :
    WaitlistEmail × MemState :=
  let w : WaitlistEmail :=
    { id := id
      email := email
      createdAt := now
      confirmed := false
      confirmationToken := some token
      confirmedAt := none }
  (w, { s with waitlistEmails := mapSet s.waitlistEmails email w })

/-- `MemStorage.getWaitlistEmail`: `this.waitlistEmails.get(email)`. -/
def getWaitlistEmail (s : MemState) (email : String) : Option WaitlistEmail :=
  mapGet s.waitlistEmails email

/-- `MemStorage.getWaitlistCount`: `this.waitlistEmails.size`. -/
def getWaitlistCount (s : MemState) : Nat :=
  s.waitlistEmails.length

/-- The mutation `confirmEmail` applies to the matched entry: confirmed
true, confirmedAt now, token nulled ("Invalidate token after use"). -/
def confirmUpd (w : WaitlistEmail) (now : Nat) : WaitlistEmail :=
  { w with confirmed := true, confirmedAt := some now,
           confirmationToken := none }

/-- The loop body of `MemStorage.confirmEmail`: walk the entries in
insertion order; at the first entry whose token matches and which is not
yet confirmed, store the confirmed copy back under its email (keys are
unique, so `set` rewrites the entry at its position) and return it. -/
def confirmList (token : String) (now : Nat) :
    List (String × WaitlistEmail) →
      Option WaitlistEmail × List (String × WaitlistEmail)
  | [] => (none, [])
  | (e, w) :: rest =>
      if w.confirmationToken = some token ∧ w.confirmed = false then
        let c := confirmUpd w now
        (some c, (e, c) :: rest)
      else
        let r := confirmList token now rest
        (r.1, (e, w) :: r.2)

/-- `MemStorage.confirmEmail`: iterate over `this.waitlistEmails.entries()`;
on the first unconfirmed entry holding the token, persist and return the
confirmed copy; otherwise return undefined and leave the map unchanged. -/
def confirmEmail (s : MemState) (token : String) (now : Nat) :
    Option WaitlistEmail × MemState :=
  let r := confirmList token now s.waitlistEmails
  (r.1, { s with waitlistEmails := r.2 })

/-- `MemStorage.getWaitlistEmailByToken`: linear scan for the first entry
whose token matches (confirmed or not). -/
def getWaitlistEmailByToken (s : MemState) (token : String) :
    Option WaitlistEmail :=
  (s.waitlistEmails.find? (fun p => p.2.confirmationToken == some token)).map
    Prod.snd

/-- `MemStorage.regenerateConfirmationToken`: look the email up; if present,
store a copy with the fresh token (`newToken` stands for the generated
`randomUUID()`) and return the token; otherwise throw "Email not found".
The confirmed flag is not consulted. -/
def regenerateConfirmationToken (s : MemState) (email newToken : String) :
    Except String String × MemState :=
  match mapGet s.waitlistEmails email with
  | some w =>
      let u := { w with confirmationToken := some newToken }
      (Except.ok newToken,
       { s with waitlistEmails := mapSet s.waitlistEmails email u })
  | none => (Except.error "Email not found", s)

end MemStorage

/-! ### DatabaseStorage (persistent implementation)

The `db` module itself is not part of the sources; the drizzle queries in
the storage file together with the unique constraints of shared/schema.ts
(`email` and `confirmation_token` are unique columns of `waitlist_emails`)
determine the behaviour modelled here: the table is a list of rows, an
insert fails when it would violate a unique constraint, and an update
rewrites every matching row. -/

/-- The persistent database state: the `users` and `waitlist_emails`
tables as lists of rows. -/
structure DbState where
  users : List User
  waitlistEmails : List WaitlistEmail
  deriving DecidableEq, Repr

namespace DatabaseStorage

/-- `DatabaseStorage.addToWaitlist`: insert a row with a generated token,
`confirmed` false, and database defaults for id and created_at.  The
insert violates a unique constraint — and so throws — exactly when some
existing row already has this email, or already has this token. -/
def addToWaitlist (db : DbState) (email id token : String) (now : Nat) :
    Except String (WaitlistEmail × DbState) :=
  if db.waitlistEmails.any (fun r => r.email == email) ∨
     db.waitlistEmails.any (fun r => r.confirmationToken == some token) then
    Except.error "duplicate key value violates unique constraint"
  else
    let w : WaitlistEmail :=
      { id := id
        email := email
        createdAt := now
        confirmed := false
        confirmationToken := some token
        confirmedAt := none }
    Except.ok (w, { db with waitlistEmails := db.waitlistEmails ++ [w] })

/-- `DatabaseStorage.getWaitlistEmail`: select the first row with this
email. -/
def getWaitlistEmail (db : DbState) (email : String) : Option WaitlistEmail :=
  db.waitlistEmails.find? (fun r => r.email == email)

/-- `DatabaseStorage.getWaitlistCount`: select count(*). -/
def getWaitlistCount (db : DbState) : Nat :=
  db.waitlistEmails.length

/-- Whether `confirmEmail`'s conditional update hits this row: token
matches and the row is unconfirmed. -/
def confirmHit (token : String) (r : WaitlistEmail) : Bool :=
  r.confirmationToken == some token && !r.confirmed

/-- `DatabaseStorage.confirmEmail`: one atomic conditional update — set
confirmed, confirmedAt and null the token on every row whose token matches
and which is unconfirmed, returning the updated rows; the code takes the
first returned row (or undefined when none was updated). -/
def confirmEmail (db : DbState) (token : String) (now : Nat) :
    Option WaitlistEmail × DbState :=
  ((db.waitlistEmails.find? (confirmHit token)).map
     (fun r => MemStorage.confirmUpd r now),
   { db with
       waitlistEmails :=
         db.waitlistEmails.map
           (fun r => if confirmHit token r then MemStorage.confirmUpd r now
                     else r) })

/-- `DatabaseStorage.regenerateConfirmationToken`: update the token on
every row with this email (the confirmed flag is not consulted); if no row
was updated, throw "Email not found". -/
def regenerateConfirmationToken (db : DbState) (email newToken : String) :
    Except String String × DbState :=
  if db.waitlistEmails.any (fun r => r.email == email) then
    (Except.ok newToken,
     { db with
         waitlistEmails :=
           db.waitlistEmails.map
             (fun r => if r.email == email then
                         { r with confirmationToken := some newToken }
                       else r) })
  else
    (Except.error "Email not found", db)

end DatabaseStorage

/-! ### Route layer (server/routes.ts)

The handlers are written against the storage interface; they are embedded
here over the in-memory backend.  `req.body` is modelled as
`Option String`: `none` when the body has no usable email field (the zod
parse throws), `some e` when the field holds the string `e`.  The zod
email-format check (library code) is a parameter `validate`.  A response
is its status code plus the JSON fields the handlers emit. -/

/-- A JSON response of the route layer: status code, `message`, and the
optional `email`, `confirmed`, `token`, `count` fields. -/
structure ApiResponse where
  status : Nat
  message : String
  email : Option String := none
  confirmedFlag : Option Bool := none
  token : Option String := none
  count : Option Nat := none
  deriving DecidableEq, Repr

/-- POST /api/waitlist: zod-validate the body (400 with the first
validation message on failure), 409 when the email is already registered,
otherwise add and answer 201 echoing the stored entry's email. -/
def postWaitlist (validate : String → Bool) (body : Option String)
    (s : MemState) (id token : String) (now : Nat) :
    ApiResponse × MemState :=
  match body with
  | none => ({ status := 400, message := "Please enter a valid email address" }, s)
  | some e =>
      if validate e then
        match MemStorage.getWaitlistEmail s e with
        | some _ =>
            ({ status := 409, message := "Email already registered for waitlist" }, s)
        | none =>
            let r := MemStorage.addToWaitlist s e id token now
            ({ status := 201, message := "Successfully added to waitlist",
               email := some r.1.email }, r.2)
      else
        ({ status := 400, message := "Please enter a valid email address" }, s)

/-- GET /api/waitlist/count: answer 200 with the storage count. -/
def getWaitlistCountRoute (s : MemState) : ApiResponse × MemState :=
  ({ status := 200, message := "", count := some (MemStorage.getWaitlistCount s) }, s)

/-- POST /api/waitlist/confirm/:token: 400 when the token parameter is
empty, otherwise confirm; 404 when nothing was confirmed, else 200 with
confirmed true. -/
def postConfirm (tokenParam : String) (s : MemState) (now : Nat) :
    ApiResponse × MemState :=
  if tokenParam = "" then
    ({ status := 400, message := "Confirmation token is required" }, s)
  else
    let r := MemStorage.confirmEmail s tokenParam now
    match r.1 with
    | none =>
        ({ status := 404, message := "Invalid or expired confirmation token" }, r.2)
    | some _ =>
        ({ status := 200, message := "Email confirmed successfully",
           confirmedFlag := some true }, r.2)

/-- POST /api/waitlist/resend-confirmation: zod-validate the body (400),
404 when the email is not on the waitlist, 400 "Email is already
confirmed" when it is confirmed, otherwise regenerate the token and answer
200; the new token is in the body only in the development environment. -/
def postResendConfirmation (validate : String → Bool) (body : Option String)
    (s : MemState) (newToken : String) (isDev : Bool) :
    ApiResponse × MemState :=
  match body with
  | none => ({ status := 400, message := "Please enter a valid email address" }, s)
  | some e =>
      if validate e then
        match MemStorage.getWaitlistEmail s e with
        | none => ({ status := 404, message := "Email not found in waitlist" }, s)
        | some w =>
            if w.confirmed then
              ({ status := 400, message := "Email is already confirmed" }, s)
            else
              match MemStorage.regenerateConfirmationToken s e newToken with
              | (Except.ok t, s') =>
                  ({ status := 200, message := "Confirmation email resent",
                     token := if isDev then some t else none }, s')
              | (Except.error _, s') =>
                  ({ status := 500, message := "Internal server error" }, s')
      else
        ({ status := 400, message := "Please enter a valid email address" }, s)

/-! ### Operation sequences over the in-memory storage -/

/-- One mutating storage call, with its nondeterministic inputs (generated
ids, tokens, clock) recorded. -/
inductive Op where
  | add (email id token : String) (now : Nat)
  | confirm (token : String) (now : Nat)
  | regen (email newToken : String)
  deriving DecidableEq, Repr

/-- Apply one storage call to the in-memory state. -/
def applyOp (s : MemState) : Op → MemState
  | Op.add email id token now => (MemStorage.addToWaitlist s email id token now).2
  | Op.confirm token now => (MemStorage.confirmEmail s token now).2
  | Op.regen email newToken =>
      (MemStorage.regenerateConfirmationToken s email newToken).2

/-- Apply a sequence of storage calls in order. -/
def applyOps (s : MemState) (ops : List Op) : MemState :=
  ops.foldl applyOp s

/-- The emails passed to the `addToWaitlist` calls of a sequence. -/
def addedEmails (ops : List Op) : List String :=
  ops.filterMap (fun o => match o with
    | Op.add email _ _ _ => some email
    | _ => none)

/-- The entry the `confirmEmail` loop is looking for: token matches and
the entry is not yet confirmed. -/
def IsTarget (t : String) (p : String × WaitlistEmail) : Prop :=
  p.2.confirmationToken = some t ∧ p.2.confirmed = false

instance (t : String) (p : String × WaitlistEmail) : Decidable (IsTarget t p) := by
  unfold IsTarget; infer_instance

/-- The first entry, in insertion order, that `confirmEmail` would hit. -/
def findTarget (t : String) :
    List (String × WaitlistEmail) → Option (String × WaitlistEmail)
  | [] => none
  | p :: rest => if IsTarget t p then some p else findTarget t rest

/-- The specification invariant on confirmed entries: once confirmed, the
confirmed-at timestamp is set and the confirmation token is cleared. -/
def ConfirmedClean (s : MemState) : Prop :=
  ∀ p ∈ s.waitlistEmails,
    p.2.confirmed = true → p.2.confirmedAt ≠ none ∧ p.2.confirmationToken = none

instance (s : MemState) : Decidable (ConfirmedClean s) := by
  unfold ConfirmedClean; infer_instance

/-- The emails added by one operation (used to count distinct emails). -/
def opAdded : Op → List String
  | Op.add email _ _ _ => [email]
  | _ => []

/-- Sample state: one signup, `a@b.com`, still unconfirmed, token `tokA`. -/
def sampleUnconfirmed : MemState :=
  (MemStorage.addToWaitlist emptyMemState "a@b.com" "id1" "tokA" 0).2

/-- Sample state: the signup of `sampleUnconfirmed` confirmed at time 5. -/
def sampleConfirmed : MemState :=
  (MemStorage.confirmEmail sampleUnconfirmed "tokA" 5).2

/-- The entry stored in `sampleUnconfirmed`. -/
def sampleEntry : WaitlistEmail :=
  { id := "id1", email := "a@b.com", createdAt := 0, confirmed := false,
    confirmationToken := some "tokA", confirmedAt := none }

/-- The entry stored in `sampleConfirmed`. -/
def sampleConfirmedEntry : WaitlistEmail :=
  { id := "id1", email := "a@b.com", createdAt := 0, confirmed := true,
    confirmationToken := none, confirmedAt := some 5 }

/-- Sample database state: one row for `a@b.com`, unconfirmed. -/
def sampleDb : DbState := ⟨[], [sampleEntry]⟩

/-! ### Helper lemmas about the map operations -/

theorem mapGet_mapSet_self {α : Type} (m : List (String × α)) (k : String)
    (v : α) : mapGet (mapSet m k v) k = some v := by
  induction m with
  | nil => simp [mapSet, mapGet]
  | cons p rest ih =>
      obtain ⟨k', v'⟩ := p
      by_cases h : k' = k <;> simp [mapSet, mapGet, h, ih]

theorem mapGet_mapSet_ne {α : Type} (m : List (String × α)) (k k' : String)
    (v : α) (h : k' ≠ k) : mapGet (mapSet m k v) k' = mapGet m k' := by
  induction m with
  | nil =>
      have hne : ¬ (k = k') := fun h' => h h'.symm
      simp [mapSet, mapGet, hne]
  | cons p rest ih =>
      obtain ⟨k₀, v₀⟩ := p
      have h1 : ¬ (k = k') := fun h' => h h'.symm
      by_cases h₀ : k₀ = k
      · have h2 : ¬ (k₀ = k') := by rw [h₀]; exact h1
        simp [mapSet, mapGet, h₀, h1, h2]
      · by_cases h₁ : k₀ = k' <;> simp [mapSet, mapGet, h₀, h₁, h, h1, ih]

theorem mapGet_eq_none_iff {α : Type} (m : List (String × α)) (k : String) :
    mapGet m k = none ↔ k ∉ keysOf m := by
  induction m with
  | nil => simp [mapGet, keysOf]
  | cons p rest ih =>
      obtain ⟨k', v'⟩ := p
      by_cases h : k' = k
      · subst h; simp [mapGet, keysOf]
      · have hne : ¬ (k = k') := fun h' => h h'.symm
        simp [mapGet, keysOf, h, hne, ih]

theorem mapGet_isSome_iff {α : Type} (m : List (String × α)) (k : String) :
    (mapGet m k).isSome = true ↔ k ∈ keysOf m := by
  rcases h : mapGet m k with _ | v
  · rw [mapGet_eq_none_iff] at h; simp [h]
  · have : ¬ mapGet m k = none := by simp [h]
    rw [mapGet_eq_none_iff] at this
    simpa using this

theorem keysOf_mapSet {α : Type} (m : List (String × α)) (k : String)
    (v : α) :
    keysOf (mapSet m k v) =
      if k ∈ keysOf m then keysOf m else keysOf m ++ [k] := by
  induction m with
  | nil => simp [mapSet, keysOf]
  | cons p rest ih =>
      obtain ⟨k', v'⟩ := p
      by_cases h : k' = k
      · subst h; simp [mapSet, keysOf]
      · have hne : ¬ (k = k') := fun h' => h h'.symm
        by_cases hmem : k ∈ List.map Prod.fst rest <;>
          simp [mapSet, keysOf, h, hne, hmem, List.mem_cons] at ih ⊢ <;>
          simp [ih]

theorem length_mapSet {α : Type} (m : List (String × α)) (k : String)
    (v : α) :
    (mapSet m k v).length =
      if k ∈ keysOf m then m.length else m.length + 1 := by
  have h₁ : (mapSet m k v).length = (keysOf (mapSet m k v)).length := by
    simp [keysOf]
  have h₂ : (keysOf m).length = m.length := by simp [keysOf]
  rw [h₁, keysOf_mapSet]
  by_cases hmem : k ∈ keysOf m <;> simp [hmem, h₂]

theorem mem_mapSet {α : Type} {m : List (String × α)} {k : String} {v : α}
    {p : String × α} (h : p ∈ mapSet m k v) : p = (k, v) ∨ p ∈ m := by
  induction m with
  | nil => simp [mapSet] at h; simp [h]
  | cons q rest ih =>
      obtain ⟨k', v'⟩ := q
      by_cases hk : k' = k
      · simp [mapSet, hk] at h
        rcases h with h | h <;> simp [h]
      · simp [mapSet, hk] at h
        rcases h with h | h
        · simp [h]
        · rcases ih h with h' | h' <;> simp [h']

theorem mapGet_mem {α : Type} {m : List (String × α)} {k : String} {v : α}
    (h : mapGet m k = some v) : (k, v) ∈ m := by
  induction m with
  | nil => simp [mapGet] at h
  | cons q rest ih =>
      obtain ⟨k', v'⟩ := q
      by_cases hk : k' = k
      · subst hk
        simp [mapGet] at h
        simp [h]
      · simp [mapGet, hk] at h
        simp [ih h]

theorem mapGet_append {α : Type} (l₁ l₂ : List (String × α)) (k : String) :
    mapGet (l₁ ++ l₂) k =
      match mapGet l₁ k with
      | some v => some v
      | none => mapGet l₂ k := by
  induction l₁ with
  | nil => simp [mapGet]
  | cons p rest ih =>
      obtain ⟨k', v'⟩ := p
      by_cases h : k' = k <;> simp [mapGet, h, ih]

theorem findTarget_eq_none_iff (t : String)
    (l : List (String × WaitlistEmail)) :
    findTarget t l = none ↔ ∀ p ∈ l, ¬ IsTarget t p := by
  induction l with
  | nil => simp [findTarget]
  | cons p rest ih =>
      by_cases h : IsTarget t p <;> simp [findTarget, h, ih]

theorem findTarget_spec {t : String} {l : List (String × WaitlistEmail)}
    {p : String × WaitlistEmail} (h : findTarget t l = some p) :
    p ∈ l ∧ IsTarget t p := by
  induction l with
  | nil => simp [findTarget] at h
  | cons q rest ih =>
      by_cases hq : IsTarget t q
      · simp [findTarget, hq] at h
        subst h; exact ⟨List.mem_cons_self _ _, hq⟩
      · simp [findTarget, hq] at h
        rcases ih h with ⟨hmem, htgt⟩
        exact ⟨List.mem_cons_of_mem _ hmem, htgt⟩

theorem confirmList_fst (t : String) (now : Nat)
    (l : List (String × WaitlistEmail)) :
    (MemStorage.confirmList t now l).1 =
      (findTarget t l).map (fun p => MemStorage.confirmUpd p.2 now) := by
  induction l with
  | nil => simp [MemStorage.confirmList, findTarget]
  | cons p rest ih =>
      obtain ⟨e, w⟩ := p
      by_cases h : w.confirmationToken = some t ∧ w.confirmed = false <;>
        simp [MemStorage.confirmList, findTarget, IsTarget, h, ih]

theorem confirmList_of_none {t : String} (now : Nat)
    {l : List (String × WaitlistEmail)} (h : findTarget t l = none) :
    MemStorage.confirmList t now l = (none, l) := by
  induction l with
  | nil => simp [MemStorage.confirmList]
  | cons p rest ih =>
      obtain ⟨e, w⟩ := p
      by_cases hp : IsTarget t (e, w)
      · simp [findTarget, hp] at h
      · simp [findTarget, hp] at h
        have hb : ¬ (w.confirmationToken = some t ∧ w.confirmed = false) := hp
        simp [MemStorage.confirmList, hb, ih h]

theorem confirmList_split {t : String} (now : Nat)
    {l : List (String × WaitlistEmail)} {k : String} {w : WaitlistEmail}
    (h : findTarget t l = some (k, w)) :
    ∃ l₁ l₂, l = l₁ ++ (k, w) :: l₂ ∧
      (∀ p ∈ l₁, ¬ IsTarget t p) ∧
      (MemStorage.confirmList t now l).2 =
        l₁ ++ (k, MemStorage.confirmUpd w now) :: l₂ := by
  induction l with
  | nil => simp [findTarget] at h
  | cons q rest ih =>
      obtain ⟨e, w'⟩ := q
      by_cases hq : IsTarget t (e, w')
      · simp [findTarget, hq] at h
        obtain ⟨he, hw⟩ := h
        have hb : w'.confirmationToken = some t ∧ w'.confirmed = false := hq
        have hb2 : w.confirmationToken = some t ∧ w.confirmed = false := by
          rw [← hw]; exact hb
        refine ⟨[], rest, by simp [he, hw], by simp, ?_⟩
        simp [MemStorage.confirmList, hb2, he, hw]
      · simp [findTarget, hq] at h
        obtain ⟨l₁, l₂, hsplit, hnone, hres⟩ := ih h
        have hb : ¬ (w'.confirmationToken = some t ∧ w'.confirmed = false) := hq
        refine ⟨(e, w') :: l₁, l₂, by simp [hsplit], ?_, ?_⟩
        · intro p hp
          rcases List.mem_cons.mp hp with h' | h'
          · subst h'; exact hq
          · exact hnone p h'
        · simp [MemStorage.confirmList, hb, hres]

theorem keysOf_confirmList (t : String) (now : Nat)
    (l : List (String × WaitlistEmail)) :
    keysOf (MemStorage.confirmList t now l).2 = keysOf l := by
  induction l with
  | nil => simp [MemStorage.confirmList]
  | cons p rest ih =>
      obtain ⟨e, w⟩ := p
      by_cases h : w.confirmationToken = some t ∧ w.confirmed = false
      · simp [MemStorage.confirmList, keysOf, h]
      · simp [MemStorage.confirmList, keysOf, h]
        simpa [keysOf] using ih

theorem mapGet_some_mem_keys {α : Type} {m : List (String × α)} {k : String}
    {v : α} (h : mapGet m k = some v) : k ∈ keysOf m := by
  by_contra hk
  rw [← mapGet_eq_none_iff] at hk
  simp [h] at hk

theorem mapGet_unique {α : Type} {m : List (String × α)} {k : String}
    {v v' : α} (hnd : KeysNodup m) (h : mapGet m k = some v)
    (hm : (k, v') ∈ m) : v' = v := by
  induction m with
  | nil => simp at hm
  | cons q rest ih =>
      obtain ⟨k₀, u₀⟩ := q
      have hnd' : KeysNodup rest := by
        unfold KeysNodup keysOf at hnd ⊢
        simpa using hnd.of_cons
      by_cases hk : k₀ = k
      · subst hk
        simp [mapGet] at h
        rcases List.mem_cons.mp hm with h' | h'
        · have hv : v' = u₀ := by simpa using congrArg Prod.snd h'
          exact hv.trans h
        · exfalso
          have : k₀ ∈ keysOf rest := by
            unfold keysOf
            exact List.mem_map.mpr ⟨(k₀, v'), h', rfl⟩
          unfold KeysNodup keysOf at hnd
          simp at hnd
          exact hnd.1 v' h'
      · simp [mapGet, hk] at h
        rcases List.mem_cons.mp hm with h' | h'
        · exfalso
          exact hk (congrArg Prod.fst h').symm
        · exact ih hnd' h h'

theorem mem_mapSet_nodup {α : Type} {m : List (String × α)} {k : String}
    {v₀ v : α} {p : String × α} (hnd : KeysNodup m)
    (h : mapGet m k = some v₀) (hp : p ∈ mapSet m k v) :
    p = (k, v) ∨ (p ∈ m ∧ p.1 ≠ k) := by
  induction m with
  | nil => simp [mapGet] at h
  | cons q rest ih =>
      obtain ⟨k₀, u₀⟩ := q
      have hnd' : KeysNodup rest := by
        unfold KeysNodup keysOf at hnd ⊢
        simpa using hnd.of_cons
      by_cases hk : k₀ = k
      · subst hk
        simp [mapSet] at hp
        rcases hp with h' | h'
        · exact Or.inl h'
        · right
          refine ⟨List.mem_cons_of_mem _ h', ?_⟩
          intro hfst
          have : p.1 ∈ keysOf rest := by
            unfold keysOf
            exact List.mem_map.mpr ⟨p, h', rfl⟩
          rw [hfst] at this
          unfold KeysNodup keysOf at hnd
          simp at hnd
          obtain ⟨p1, p2⟩ := p
          simp at hfst
          subst hfst
          exact hnd.1 p2 h'
      · simp [mapSet, hk] at hp
        simp [mapGet, hk] at h
        rcases hp with h' | h'
        · right
          refine ⟨by simp [h'], ?_⟩
          simp [h', hk]
        · rcases ih hnd' h h' with h'' | h''
          · exact Or.inl h''
          · exact Or.inr ⟨List.mem_cons_of_mem _ h''.1, h''.2⟩

theorem findTarget_eq_of_unique {t : String}
    {l : List (String × WaitlistEmail)} {p₀ : String × WaitlistEmail}
    (hmem : p₀ ∈ l) (hp : IsTarget t p₀)
    (huniq : ∀ p ∈ l, IsTarget t p → p = p₀) : findTarget t l = some p₀ := by
  induction l with
  | nil => simp at hmem
  | cons q rest ih =>
      by_cases hq : IsTarget t q
      · have hqe : q = p₀ := huniq q (List.mem_cons_self _ _) hq
        simp only [findTarget]
        rw [if_pos hq, hqe]
      · have hm : p₀ ∈ rest := by
          rcases List.mem_cons.mp hmem with h' | h'
          · exact absurd (h' ▸ hp) hq
          · exact h'
        have hu : ∀ p ∈ rest, IsTarget t p → p = p₀ :=
          fun p hpm => huniq p (List.mem_cons_of_mem _ hpm)
        simp [findTarget, hq, ih hm hu]

theorem confirmList_mapGet {t : String} (now : Nat)
    {l : List (String × WaitlistEmail)} {k : String} {w : WaitlistEmail}
    (hnd : KeysNodup l) (h : findTarget t l = some (k, w)) :
    mapGet (MemStorage.confirmList t now l).2 k =
      some (MemStorage.confirmUpd w now) ∧
    ∀ k', k' ≠ k →
      mapGet (MemStorage.confirmList t now l).2 k' = mapGet l k' := by
  obtain ⟨l₁, l₂, hsp, -, hres⟩ := confirmList_split now h
  have hk1 : mapGet l₁ k = none := by
    rw [mapGet_eq_none_iff]
    intro hk
    have hnd2 : (keysOf l₁ ++ k :: keysOf l₂).Nodup := by
      have heq : keysOf l = keysOf l₁ ++ k :: keysOf l₂ := by
        simp [hsp, keysOf]
      unfold KeysNodup at hnd
      rw [← heq]
      exact hnd
    rcases List.nodup_append.mp hnd2 with ⟨-, -, hdisj⟩
    exact hdisj hk (List.mem_cons_self _ _)
  constructor
  · rw [hres, mapGet_append]
    simp [hk1, mapGet]
  · intro k' hk'
    rw [hres, hsp, mapGet_append, mapGet_append]
    have hne : ¬ (k = k') := fun h' => hk' h'.symm
    cases hg : mapGet l₁ k' <;> simp [mapGet, hne]

theorem mem_confirmList_snd {t : String} {now : Nat}
    {l : List (String × WaitlistEmail)} {p : String × WaitlistEmail}
    (hp : p ∈ (MemStorage.confirmList t now l).2) :
    p ∈ l ∨ ∃ q ∈ l, p = (q.1, MemStorage.confirmUpd q.2 now) := by
  induction l with
  | nil => simp [MemStorage.confirmList] at hp
  | cons q rest ih =>
      obtain ⟨e, w⟩ := q
      by_cases hb : w.confirmationToken = some t ∧ w.confirmed = false
      · simp [MemStorage.confirmList, hb] at hp
        rcases hp with h' | h'
        · exact Or.inr ⟨(e, w), List.mem_cons_self _ _, h'⟩
        · exact Or.inl (List.mem_cons_of_mem _ h')
      · simp [MemStorage.confirmList, hb] at hp
        rcases hp with h' | h'
        · exact Or.inl (by simp [h'])
        · rcases ih h' with h'' | h''
          · exact Or.inl (List.mem_cons_of_mem _ h'')
          · obtain ⟨q₀, hq₀, hpq⟩ := h''
            exact Or.inr ⟨q₀, List.mem_cons_of_mem _ hq₀, hpq⟩

theorem keysOf_applyOp_add (s : MemState) (e id tok : String) (now : Nat) :
    keysOf (applyOp s (Op.add e id tok now)).waitlistEmails =
      if e ∈ keysOf s.waitlistEmails then keysOf s.waitlistEmails
      else keysOf s.waitlistEmails ++ [e] := by
  simp [applyOp, MemStorage.addToWaitlist, keysOf_mapSet]

theorem keysOf_applyOp_confirm (s : MemState) (tok : String) (now : Nat) :
    keysOf (applyOp s (Op.confirm tok now)).waitlistEmails =
      keysOf s.waitlistEmails := by
  simp [applyOp, MemStorage.confirmEmail, keysOf_confirmList]

theorem keysOf_applyOp_regen (s : MemState) (e tok : String) :
    keysOf (applyOp s (Op.regen e tok)).waitlistEmails =
      keysOf s.waitlistEmails := by
  unfold applyOp MemStorage.regenerateConfirmationToken
  rcases hg : mapGet s.waitlistEmails e with _ | w
  · simp [hg]
  · simp [hg, keysOf_mapSet, mapGet_some_mem_keys hg]

theorem keysNodup_applyOp (s : MemState) (op : Op)
    (h : KeysNodup s.waitlistEmails) :
    KeysNodup (applyOp s op).waitlistEmails := by
  unfold KeysNodup at h ⊢
  cases op with
  | add e id tok now =>
      rw [keysOf_applyOp_add]
      by_cases hm : e ∈ keysOf s.waitlistEmails
      · simpa [hm] using h
      · rw [if_neg hm]
        refine h.append (List.nodup_singleton e) ?_
        intro a ha hb
        rw [List.mem_singleton] at hb
        subst hb
        exact hm ha
  | confirm tok now => rw [keysOf_applyOp_confirm]; exact h
  | regen e tok => rw [keysOf_applyOp_regen]; exact h

theorem toFinset_keysOf_applyOp (s : MemState) (op : Op) :
    (keysOf (applyOp s op).waitlistEmails).toFinset =
      (keysOf s.waitlistEmails).toFinset ∪ (opAdded op).toFinset := by
  cases op with
  | add e id tok now =>
      rw [keysOf_applyOp_add]
      by_cases hm : e ∈ keysOf s.waitlistEmails
      · rw [if_pos hm]
        have habs : (keysOf s.waitlistEmails).toFinset ∪ {e} =
            (keysOf s.waitlistEmails).toFinset := by
          rw [Finset.union_eq_left]
          simp [hm]
        simp [opAdded, habs]
      · rw [if_neg hm]
        simp [opAdded, List.toFinset_append]
  | confirm tok now => rw [keysOf_applyOp_confirm]; simp [opAdded]
  | regen e tok => rw [keysOf_applyOp_regen]; simp [opAdded]

theorem addedEmails_cons (op : Op) (ops : List Op) :
    addedEmails (op :: ops) = opAdded op ++ addedEmails ops := by
  cases op <;> simp [addedEmails, opAdded]

theorem keys_applyOps (ops : List Op) :
    ∀ s : MemState, KeysNodup s.waitlistEmails →
      KeysNodup (applyOps s ops).waitlistEmails ∧
      (keysOf (applyOps s ops).waitlistEmails).toFinset =
        (keysOf s.waitlistEmails).toFinset ∪ (addedEmails ops).toFinset := by
  induction ops with
  | nil =>
      intro s h
      exact ⟨h, by simp [applyOps, addedEmails]⟩
  | cons op rest ih =>
      intro s h
      have hstep := keysNodup_applyOp s op h
      have hfin := toFinset_keysOf_applyOp s op
      have hrec := ih (applyOp s op) hstep
      have hfold : applyOps s (op :: rest) = applyOps (applyOp s op) rest := by
        simp [applyOps]
      rw [hfold]
      refine ⟨hrec.1, ?_⟩
      rw [hrec.2, hfin, addedEmails_cons]
      simp [List.toFinset_append, Finset.union_assoc]

theorem count_mono_applyOp (s : MemState) (op : Op) :
    MemStorage.getWaitlistCount s ≤ MemStorage.getWaitlistCount (applyOp s op) := by
  unfold MemStorage.getWaitlistCount
  have h1 : (applyOp s op).waitlistEmails.length =
      (keysOf (applyOp s op).waitlistEmails).length := by simp [keysOf]
  have h2 : s.waitlistEmails.length = (keysOf s.waitlistEmails).length := by
    simp [keysOf]
  cases op with
  | add e id tok now =>
      rw [h1, h2, keysOf_applyOp_add]
      by_cases hm : e ∈ keysOf s.waitlistEmails
      · rw [if_pos hm]
      · rw [if_neg hm]
        simp
  | confirm tok now => rw [h1, h2, keysOf_applyOp_confirm]
  | regen e tok => rw [h1, h2, keysOf_applyOp_regen]

/-! ### Claim C1 -/

/-- Claim C1 is false for the in-memory implementation: with an entry for
`a@b.com` already stored, `MemStorage.addToWaitlist` with the same email
does not fail — it returns a fresh entry and replaces the stored one (the
count stays 1). -/
theorem c1_counterexample :
    MemStorage.getWaitlistEmail sampleUnconfirmed "a@b.com" = some sampleEntry ∧
    (MemStorage.addToWaitlist sampleUnconfirmed "a@b.com" "id2" "tokB" 1).1 =
      { id := "id2", email := "a@b.com", createdAt := 1, confirmed := false,
        confirmationToken := some "tokB", confirmedAt := none } ∧
    MemStorage.getWaitlistEmail
        (MemStorage.addToWaitlist sampleUnconfirmed "a@b.com" "id2" "tokB" 1).2
        "a@b.com" =
      some { id := "id2", email := "a@b.com", createdAt := 1, confirmed := false,
             confirmationToken := some "tokB", confirmedAt := none } ∧
    MemStorage.getWaitlistCount
        (MemStorage.addToWaitlist sampleUnconfirmed "a@b.com" "id2" "tokB" 1).2 = 1 := by
  decide

/-- Claim C1 as amended: the persistent implementation rejects a duplicate
email (unique-constraint violation, nothing inserted); the in-memory
implementation never rejects — it stores the new entry under the email,
replacing any existing entry and leaving the count unchanged when the
email was present; duplicate rejection for it is enforced by the route
layer, whose handler answers 409 without calling addToWaitlist. -/
theorem c1_amended :
    (∀ (db : DbState) (email id token : String) (now : Nat),
      (∃ row ∈ db.waitlistEmails, row.email = email) →
      DatabaseStorage.addToWaitlist db email id token now =
        Except.error "duplicate key value violates unique constraint") ∧
    (∀ (s : MemState) (email id token : String) (now : Nat),
      MemStorage.getWaitlistEmail
          (MemStorage.addToWaitlist s email id token now).2 email =
        some (MemStorage.addToWaitlist s email id token now).1 ∧
      (email ∈ keysOf s.waitlistEmails →
        MemStorage.getWaitlistCount (MemStorage.addToWaitlist s email id token now).2 =
          MemStorage.getWaitlistCount s)) ∧
    (∀ (validate : String → Bool) (s : MemState) (e id token : String)
        (now : Nat) (w : WaitlistEmail),
      validate e = true → MemStorage.getWaitlistEmail s e = some w →
      postWaitlist validate (some e) s id token now =
        ({ status := 409, message := "Email already registered for waitlist" }, s)) := by
  refine ⟨?_, ?_, ?_⟩
  · intro db email id token now h
    obtain ⟨row, hmem, hrow⟩ := h
    have hany : db.waitlistEmails.any (fun r => r.email == email) = true := by
      rw [List.any_eq_true]
      exact ⟨row, hmem, by simp [hrow]⟩
    unfold DatabaseStorage.addToWaitlist
    rw [if_pos (Or.inl hany)]
  · intro s email id token now
    constructor
    · simp [MemStorage.addToWaitlist, MemStorage.getWaitlistEmail,
            mapGet_mapSet_self]
    · intro hmem
      simp [MemStorage.addToWaitlist, MemStorage.getWaitlistCount,
            length_mapSet, hmem]
  · intro validate s e id token now w hv h
    simp [postWaitlist, hv, h]

/-- Witness for the amended C1 at concrete inputs. -/
theorem c1_amended_witness :
    DatabaseStorage.addToWaitlist sampleDb "a@b.com" "id2" "tokB" 1 =
      Except.error "duplicate key value violates unique constraint" ∧
    postWaitlist (fun _ => true) (some "a@b.com") sampleUnconfirmed "id2" "tokB" 1 =
      ({ status := 409, message := "Email already registered for waitlist" },
       sampleUnconfirmed) :=
  ⟨c1_amended.1 sampleDb "a@b.com" "id2" "tokB" 1
     ⟨sampleEntry, by decide, by decide⟩,
   c1_amended.2.2 (fun _ => true) sampleUnconfirmed "a@b.com" "id2" "tokB" 1
     sampleEntry rfl (by decide)⟩

/-! ### Claim C3 -/

/-- Claim C3 is false: starting from the empty state, two successful
`addToWaitlist` calls with the same email leave the count at 1, not 2
(the in-memory `addToWaitlist` cannot fail; the duplicate add replaced
the first entry). -/
theorem c3_counterexample :
    MemStorage.getWaitlistCount
        (applyOps emptyMemState
          [Op.add "a@b.com" "id1" "tokA" 0, Op.add "a@b.com" "id2" "tokB" 1]) = 1 ∧
    (addedEmails
        [Op.add "a@b.com" "id1" "tokA" 0, Op.add "a@b.com" "id2" "tokB" 1]).length = 2 := by
  decide

/-- Claim C3 as amended: for every sequence of storage operations from the
empty state, `getWaitlistCount` equals the number of distinct emails among
the (always-successful) `addToWaitlist` calls, and no operation ever
decreases the count. -/
theorem c3_amended (ops : List Op) :
    MemStorage.getWaitlistCount (applyOps emptyMemState ops) =
      (addedEmails ops).toFinset.card ∧
    ∀ (s : MemState) (op : Op),
      MemStorage.getWaitlistCount s ≤ MemStorage.getWaitlistCount (applyOp s op) := by
  refine ⟨?_, fun s op => count_mono_applyOp s op⟩
  have h := keys_applyOps ops emptyMemState (by simp [emptyMemState, KeysNodup, keysOf])
  have hlen : (applyOps emptyMemState ops).waitlistEmails.length =
      (keysOf (applyOps emptyMemState ops).waitlistEmails).length := by
    simp [keysOf]
  unfold MemStorage.getWaitlistCount
  rw [hlen, ← List.toFinset_card_of_nodup h.1, h.2]
  simp [emptyMemState, keysOf]

/-! ### Claim C4 -/

/-- Claim C4 is false: in `sampleConfirmed` the entry stored under
`a@b.com` has confirmed = true, and after the storage operation
`addToWaitlist` with that same email the entry stored under `a@b.com` has
confirmed = false again. -/
theorem c4_counterexample :
    (MemStorage.getWaitlistEmail sampleConfirmed "a@b.com").map
        WaitlistEmail.confirmed = some true ∧
    (MemStorage.getWaitlistEmail
        (MemStorage.addToWaitlist sampleConfirmed "a@b.com" "id2" "tokB" 7).2
        "a@b.com").map WaitlistEmail.confirmed = some false := by
  decide

/-- Claim C4 as amended: `confirmEmail` and `regenerateConfirmationToken`
never take a stored entry's confirmed flag from true back to false, and
neither does `addToWaitlist` for a fresh email; only `addToWaitlist` on an
already-present email can replace a confirmed entry with an unconfirmed
one (the route layer's duplicate check prevents that path). -/
theorem c4_amended (s : MemState) (e : String) (w : WaitlistEmail)
    (hnd : KeysNodup s.waitlistEmails)
    (h : MemStorage.getWaitlistEmail s e = some w) (hc : w.confirmed = true) :
    (∀ t now, ∃ w', MemStorage.getWaitlistEmail
        (MemStorage.confirmEmail s t now).2 e = some w' ∧ w'.confirmed = true) ∧
    (∀ e' tok, ∃ w', MemStorage.getWaitlistEmail
        (MemStorage.regenerateConfirmationToken s e' tok).2 e = some w' ∧
        w'.confirmed = true) ∧
    (∀ e' id tok now, MemStorage.getWaitlistEmail s e' = none →
      ∃ w', MemStorage.getWaitlistEmail
          (MemStorage.addToWaitlist s e' id tok now).2 e = some w' ∧
          w'.confirmed = true) := by
  refine ⟨?_, ?_, ?_⟩
  · intro t now
    rcases hft : findTarget t s.waitlistEmails with _ | p
    · have hres := confirmList_of_none now hft
      refine ⟨w, ?_, hc⟩
      simp [MemStorage.confirmEmail, MemStorage.getWaitlistEmail, hres]
      exact h
    · obtain ⟨k, w₀⟩ := p
      have hspec := findTarget_spec hft
      have hkne : k ≠ e := by
        intro hke
        subst hke
        have huw : w₀ = w := mapGet_unique hnd h hspec.1
        have hfalse : w₀.confirmed = false := hspec.2.2
        rw [huw, hc] at hfalse
        simp at hfalse
      have hmg := (confirmList_mapGet now hnd hft).2 e
        (fun h' => hkne h'.symm)
      refine ⟨w, ?_, hc⟩
      simpa [MemStorage.confirmEmail, MemStorage.getWaitlistEmail, hmg] using h
  · intro e' tok
    unfold MemStorage.regenerateConfirmationToken
    rcases hg : mapGet s.waitlistEmails e' with _ | u
    · exact ⟨w, by simpa [MemStorage.getWaitlistEmail] using h, hc⟩
    · by_cases he : e' = e
      · subst he
        have huw : u = w := by
          have h2 : mapGet s.waitlistEmails e' = some w := h
          rw [hg] at h2
          exact Option.some.inj h2
        refine ⟨{ u with confirmationToken := some tok }, ?_, by simp [huw, hc]⟩
        simp [MemStorage.getWaitlistEmail, mapGet_mapSet_self]
      · refine ⟨w, ?_, hc⟩
        have hne : e ≠ e' := fun h' => he h'.symm
        simpa [MemStorage.getWaitlistEmail,
               mapGet_mapSet_ne s.waitlistEmails e' e _ hne] using h
  · intro e' id tok now h'
    have hne : e ≠ e' := by
      intro he
      rw [← he] at h'
      have h2 : mapGet s.waitlistEmails e = none := h'
      have h3 : mapGet s.waitlistEmails e = some w := h
      rw [h2] at h3
      cases h3
    refine ⟨w, ?_, hc⟩
    simpa [MemStorage.addToWaitlist, MemStorage.getWaitlistEmail,
           mapGet_mapSet_ne s.waitlistEmails e' e _ hne] using h

/-- Witness for the amended C4 at concrete inputs. -/
theorem c4_amended_witness :
    ∃ w', MemStorage.getWaitlistEmail
        (MemStorage.confirmEmail sampleConfirmed "tokX" 9).2 "a@b.com" =
      some w' ∧ w'.confirmed = true :=
  (c4_amended sampleConfirmed "a@b.com" sampleConfirmedEntry (by decide)
      (by decide) (by decide)).1 "tokX" 9

/-! ### Claim C2 -/

/-- Claim C2: in both implementations, `confirmEmail(t)` confirms the
(first) unconfirmed entry holding token `t` — confirmed := true,
confirmedAt := now, token cleared, the updated entry returned and stored —
and when no unconfirmed entry holds `t` it returns none and leaves the
state unchanged; with tokens held by at most one entry (the spec's
uniqueness invariant, enforced by the database schema), a second
`confirmEmail` with the same token returns none and changes nothing. -/
theorem c2 (s : MemState) (t : String) (now now' : Nat)
    (hnd : KeysNodup s.waitlistEmails) :
    (∀ k w, findTarget t s.waitlistEmails = some (k, w) →
      (MemStorage.confirmEmail s t now).1 = some (MemStorage.confirmUpd w now) ∧
      (MemStorage.confirmUpd w now).confirmed = true ∧
      (MemStorage.confirmUpd w now).confirmedAt = some now ∧
      (MemStorage.confirmUpd w now).confirmationToken = none ∧
      MemStorage.getWaitlistEmail (MemStorage.confirmEmail s t now).2 k =
        some (MemStorage.confirmUpd w now)) ∧
    ((∀ p ∈ s.waitlistEmails, ¬ IsTarget t p) →
      MemStorage.confirmEmail s t now = (none, s)) ∧
    (s.waitlistEmails.countP
        (fun p => p.2.confirmationToken == some t) ≤ 1 →
      (MemStorage.confirmEmail s t now).1.isSome = true →
      MemStorage.confirmEmail (MemStorage.confirmEmail s t now).2 t now' =
        (none, (MemStorage.confirmEmail s t now).2)) ∧
    (∀ (db : DbState) (r : WaitlistEmail),
      db.waitlistEmails.find? (DatabaseStorage.confirmHit t) = some r →
      (DatabaseStorage.confirmEmail db t now).1 =
        some (MemStorage.confirmUpd r now)) ∧
    (∀ db : DbState,
      db.waitlistEmails.find? (DatabaseStorage.confirmHit t) = none →
      DatabaseStorage.confirmEmail db t now = (none, db)) ∧
    (∀ db : DbState,
      (DatabaseStorage.confirmEmail
          (DatabaseStorage.confirmEmail db t now).2 t now').1 = none) := by
  refine ⟨?_, ?_, ?_, ?_, ?_, ?_⟩
  · intro k w hft
    have hfst := confirmList_fst t now s.waitlistEmails
    rw [hft] at hfst
    have hmg := (confirmList_mapGet now hnd hft).1
    exact ⟨by simp [MemStorage.confirmEmail, hfst], rfl, rfl, rfl,
           by simpa [MemStorage.confirmEmail, MemStorage.getWaitlistEmail]
             using hmg⟩
  · intro hnone
    have hft : findTarget t s.waitlistEmails = none :=
      (findTarget_eq_none_iff t s.waitlistEmails).mpr hnone
    have hres := confirmList_of_none now hft
    simp [MemStorage.confirmEmail, hres]
  · intro hcount hsome
    have hfst := confirmList_fst t now s.waitlistEmails
    rcases hft : findTarget t s.waitlistEmails with _ | p
    · rw [hft] at hfst
      rw [MemStorage.confirmEmail] at hsome
      simp [hfst] at hsome
    · obtain ⟨k, w⟩ := p
      obtain ⟨l₁, l₂, hsp, -, hres⟩ := confirmList_split now hft
      have hwtok : w.confirmationToken = some t := (findTarget_spec hft).2.1
      have hc1 : List.countP (fun p => p.2.confirmationToken == some t) l₁ = 0 ∧
          List.countP (fun p => p.2.confirmationToken == some t) l₂ = 0 := by
        rw [hsp, List.countP_append, List.countP_cons] at hcount
        simp [hwtok] at hcount
        omega
      have hanti1 := List.countP_eq_zero.mp hc1.1
      have hanti2 := List.countP_eq_zero.mp hc1.2
      have hft2 : findTarget t (MemStorage.confirmList t now s.waitlistEmails).2 =
          none := by
        rw [hres, findTarget_eq_none_iff]
        intro p hp
        rcases List.mem_append.mp hp with hp1 | hp2
        · intro htgt
          have := hanti1 p hp1
          simp [htgt.1] at this
        · rcases List.mem_cons.mp hp2 with hpk | hp3
          · intro htgt
            rw [hpk] at htgt
            simp [IsTarget, MemStorage.confirmUpd] at htgt
          · intro htgt
            have := hanti2 p hp3
            simp [htgt.1] at this
      have hres2 := confirmList_of_none now' hft2
      simp [MemStorage.confirmEmail, hres2]
  · intro db r hfind
    simp [DatabaseStorage.confirmEmail, hfind]
  · intro db hfind
    have hall := List.find?_eq_none.mp hfind
    have hmap : db.waitlistEmails.map
        (fun r => if DatabaseStorage.confirmHit t r then
                    MemStorage.confirmUpd r now else r) =
        db.waitlistEmails := by
      conv_rhs => rw [← List.map_id db.waitlistEmails]
      refine List.map_congr_left ?_
      intro r hr
      simp [hall r hr]
    simp [DatabaseStorage.confirmEmail, hfind, hmap]
  · intro db
    have hall : ∀ r' ∈ (DatabaseStorage.confirmEmail db t now).2.waitlistEmails,
        ¬ DatabaseStorage.confirmHit t r' = true := by
      intro r' hr'
      simp only [DatabaseStorage.confirmEmail] at hr'
      rcases List.mem_map.mp hr' with ⟨r, hr, hmap⟩
      by_cases hhit : DatabaseStorage.confirmHit t r = true
      · rw [if_pos hhit] at hmap
        rw [← hmap]
        simp [DatabaseStorage.confirmHit, MemStorage.confirmUpd]
      · rw [if_neg hhit] at hmap
        rw [← hmap]
        exact hhit
    have hfnone : (DatabaseStorage.confirmEmail db t now).2.waitlistEmails.find?
        (DatabaseStorage.confirmHit t) = none := List.find?_eq_none.mpr hall
    have hfst : ∀ dbx : DbState,
        (DatabaseStorage.confirmEmail dbx t now').1 =
          (dbx.waitlistEmails.find? (DatabaseStorage.confirmHit t)).map
            (fun r => MemStorage.confirmUpd r now') := fun dbx => rfl
    rw [hfst, hfnone]
    rfl

/-- Witness for C2: confirming `tokA` in the sample state succeeds and
yields the confirmed entry; a second confirm with `tokA` is a no-op. -/
theorem c2_witness :
    (MemStorage.confirmEmail sampleUnconfirmed "tokA" 5).1 =
      some (MemStorage.confirmUpd sampleEntry 5) ∧
    MemStorage.confirmEmail
        (MemStorage.confirmEmail sampleUnconfirmed "tokA" 5).2 "tokA" 6 =
      (none, (MemStorage.confirmEmail sampleUnconfirmed "tokA" 5).2) :=
  ⟨((c2 sampleUnconfirmed "tokA" 5 6 (by decide)).1 "a@b.com" sampleEntry
      (by decide)).1,
   (c2 sampleUnconfirmed "tokA" 5 6 (by decide)).2.2.1 (by decide) (by decide)⟩

/-! ### Claim C5 -/

/-- Claim C5: for an unconfirmed entry with token A, after
`regenerateConfirmationToken` stored new token B (under the spec's token
uniqueness: no other entry holds A, none holds B, and B is fresh),
`confirmEmail(A)` is a not-found no-op while `confirmEmail(B)` confirms
the entry. -/
theorem c5 (s : MemState) (e tokA tokB : String) (w : WaitlistEmail)
    (now : Nat) (hnd : KeysNodup s.waitlistEmails)
    (h : MemStorage.getWaitlistEmail s e = some w)
    (hw : w.confirmed = false)
    (htok : w.confirmationToken = some tokA)
    (hA : ∀ p ∈ s.waitlistEmails,
      p.2.confirmationToken = some tokA → p = (e, w))
    (hB : ∀ p ∈ s.waitlistEmails, p.2.confirmationToken ≠ some tokB)
    (hAB : tokB ≠ tokA) :
    (MemStorage.regenerateConfirmationToken s e tokB).1 = Except.ok tokB ∧
    MemStorage.confirmEmail
        (MemStorage.regenerateConfirmationToken s e tokB).2 tokA now =
      (none, (MemStorage.regenerateConfirmationToken s e tokB).2) ∧
    (MemStorage.confirmEmail
        (MemStorage.regenerateConfirmationToken s e tokB).2 tokB now).1 =
      some (MemStorage.confirmUpd
        { w with confirmationToken := some tokB } now) ∧
    (MemStorage.confirmUpd
        { w with confirmationToken := some tokB } now).confirmed = true ∧
    MemStorage.getWaitlistEmail
        (MemStorage.confirmEmail
          (MemStorage.regenerateConfirmationToken s e tokB).2 tokB now).2 e =
      some (MemStorage.confirmUpd
        { w with confirmationToken := some tokB } now) := by
  have hmg : mapGet s.waitlistEmails e = some w := h
  have hreg : MemStorage.regenerateConfirmationToken s e tokB =
      (Except.ok tokB,
       MemState.mk s.users
         (mapSet s.waitlistEmails e
           ({ w with confirmationToken := some tokB }))) := by
    unfold MemStorage.regenerateConfirmationToken
    rw [hmg]
  have hmem : e ∈ keysOf s.waitlistEmails := mapGet_some_mem_keys hmg
  have hnd2 : KeysNodup (mapSet s.waitlistEmails e
      ({ w with confirmationToken := some tokB })) := by
    unfold KeysNodup
    rw [keysOf_mapSet, if_pos hmem]
    exact hnd
  have hmemset : (e, { w with confirmationToken := some tokB }) ∈
      mapSet s.waitlistEmails e ({ w with confirmationToken := some tokB }) :=
    mapGet_mem (mapGet_mapSet_self s.waitlistEmails e _)
  have hcases : ∀ p ∈ mapSet s.waitlistEmails e
      ({ w with confirmationToken := some tokB }),
      p = (e, { w with confirmationToken := some tokB }) ∨
        (p ∈ s.waitlistEmails ∧ p.1 ≠ e) :=
    fun p hp => mem_mapSet_nodup hnd hmg hp
  have hftA : findTarget tokA (mapSet s.waitlistEmails e
      ({ w with confirmationToken := some tokB })) = none := by
    rw [findTarget_eq_none_iff]
    intro p hp htgt
    rcases hcases p hp with hpe | ⟨hpmem, hpne⟩
    · rw [hpe] at htgt
      have : some tokB = some tokA := htgt.1
      exact hAB (Option.some.inj this)
    · have := hA p hpmem htgt.1
      rw [this] at hpne
      exact hpne rfl
  have hftB : findTarget tokB (mapSet s.waitlistEmails e
      ({ w with confirmationToken := some tokB })) =
      some (e, { w with confirmationToken := some tokB }) := by
    refine findTarget_eq_of_unique hmemset ⟨rfl, hw⟩ ?_
    intro p hp htgt
    rcases hcases p hp with hpe | ⟨hpmem, hpne⟩
    · exact hpe
    · exact absurd htgt.1 (hB p hpmem)
  refine ⟨by simp [hreg], ?_, ?_, rfl, ?_⟩
  · rw [hreg]
    have hres := confirmList_of_none now hftA
    simp [MemStorage.confirmEmail, hres]
  · rw [hreg]
    have hfst := confirmList_fst tokB now (mapSet s.waitlistEmails e
      ({ w with confirmationToken := some tokB }))
    rw [hftB] at hfst
    simp [MemStorage.confirmEmail, hfst]
  · rw [hreg]
    have hmg2 := (confirmList_mapGet now hnd2 hftB).1
    simpa [MemStorage.confirmEmail, MemStorage.getWaitlistEmail] using hmg2

/-- Witness for C5 at concrete inputs: regenerate `a@b.com`'s token from
`tokA` to `tokB`, then the old token fails and the new one confirms. -/
theorem c5_witness :
    MemStorage.confirmEmail
        (MemStorage.regenerateConfirmationToken sampleUnconfirmed
          "a@b.com" "tokB").2 "tokA" 5 =
      (none,
       (MemStorage.regenerateConfirmationToken sampleUnconfirmed
         "a@b.com" "tokB").2) ∧
    (MemStorage.confirmEmail
        (MemStorage.regenerateConfirmationToken sampleUnconfirmed
          "a@b.com" "tokB").2 "tokB" 5).1 =
      some (MemStorage.confirmUpd
        { sampleEntry with confirmationToken := some "tokB" } 5) :=
  ⟨(c5 sampleUnconfirmed "a@b.com" "tokA" "tokB" sampleEntry 5 (by decide)
      (by decide) (by decide) (by decide) (by decide) (by decide)
      (by decide)).2.1,
   (c5 sampleUnconfirmed "a@b.com" "tokA" "tokB" sampleEntry 5 (by decide)
      (by decide) (by decide) (by decide) (by decide) (by decide)
      (by decide)).2.2.1⟩

/-! ### Claim C6 -/

/-- Claim C6 is false as an invariant over every storage operation:
`sampleConfirmed` satisfies it (its confirmed entry has confirmedAt set and
token cleared), but `regenerateConfirmationToken` — which never checks the
confirmed flag — sets a fresh token on the confirmed entry, leaving a
confirmed entry whose token is present again. -/
theorem c6_counterexample :
    ConfirmedClean sampleConfirmed ∧
    ¬ ConfirmedClean
        (MemStorage.regenerateConfirmationToken sampleConfirmed
          "a@b.com" "tokB").2 ∧
    MemStorage.getWaitlistEmail
        (MemStorage.regenerateConfirmationToken sampleConfirmed
          "a@b.com" "tokB").2 "a@b.com" =
      some { id := "id1", email := "a@b.com", createdAt := 0,
             confirmed := true, confirmationToken := some "tokB",
             confirmedAt := some 5 } := by
  decide

/-- Claim C6 as amended: the confirmed-entries invariant (confirmedAt set,
token cleared) is preserved by `addToWaitlist` and `confirmEmail`
unconditionally, and by `regenerateConfirmationToken` whenever the
targeted email's entry is unconfirmed — which the route layer guarantees
by rejecting resends for confirmed emails; calling the storage operation
directly on a confirmed entry breaks the invariant. -/
theorem c6_amended (s : MemState) (hinv : ConfirmedClean s) :
    (∀ e id tok now,
      ConfirmedClean (MemStorage.addToWaitlist s e id tok now).2) ∧
    (∀ t now, ConfirmedClean (MemStorage.confirmEmail s t now).2) ∧
    (∀ e tok,
      (∀ w, MemStorage.getWaitlistEmail s e = some w → w.confirmed = false) →
      ConfirmedClean (MemStorage.regenerateConfirmationToken s e tok).2) := by
  refine ⟨?_, ?_, ?_⟩
  · intro e id tok now p hp htrue
    rcases mem_mapSet hp with hpe | hpm
    · rw [hpe] at htrue
      simp at htrue
    · exact hinv p hpm htrue
  · intro t now p hp htrue
    rcases mem_confirmList_snd hp with hpm | ⟨q, hq, hpq⟩
    · exact hinv p hpm htrue
    · rw [hpq]
      simp [MemStorage.confirmUpd]
  · intro e tok hunconf p hp htrue
    unfold MemStorage.regenerateConfirmationToken at hp
    rcases hg : mapGet s.waitlistEmails e with _ | u
    · rw [hg] at hp
      exact hinv p hp htrue
    · rw [hg] at hp
      simp only at hp
      rcases mem_mapSet hp with hpe | hpm
      · exfalso
        have hu : u.confirmed = false := hunconf u hg
        rw [hpe] at htrue
        simp [hu] at htrue
      · exact hinv p hpm htrue

/-- Witness for the amended C6: the invariant survives a confirm call on
the sample state. -/
theorem c6_amended_witness :
    ConfirmedClean (MemStorage.confirmEmail sampleConfirmed "tokZ" 9).2 :=
  (c6_amended sampleConfirmed (by decide)).2.1 "tokZ" 9

/-! ### Claim C9 -/

/-- Claim C9: `regenerateConfirmationToken(email)` stores the freshly
generated token on the entry with that email (replacing the prior token,
all other entries untouched) and returns exactly it; with no entry for the
email it fails with "Email not found" and leaves the state unchanged — in
both implementations. -/
theorem c9 (s : MemState) (e tok : String) :
    (∀ w, MemStorage.getWaitlistEmail s e = some w →
      MemStorage.regenerateConfirmationToken s e tok =
        (Except.ok tok,
         MemState.mk s.users
           (mapSet s.waitlistEmails e
             ({ w with confirmationToken := some tok }))) ∧
      MemStorage.getWaitlistEmail
          (MemStorage.regenerateConfirmationToken s e tok).2 e =
        some { w with confirmationToken := some tok } ∧
      ∀ k, k ≠ e →
        MemStorage.getWaitlistEmail
            (MemStorage.regenerateConfirmationToken s e tok).2 k =
          MemStorage.getWaitlistEmail s k) ∧
    (MemStorage.getWaitlistEmail s e = none →
      MemStorage.regenerateConfirmationToken s e tok =
        (Except.error "Email not found", s)) ∧
    (∀ db : DbState, (¬ ∃ r ∈ db.waitlistEmails, r.email = e) →
      DatabaseStorage.regenerateConfirmationToken db e tok =
        (Except.error "Email not found", db)) ∧
    (∀ db : DbState, (∃ r ∈ db.waitlistEmails, r.email = e) →
      (DatabaseStorage.regenerateConfirmationToken db e tok).1 =
        Except.ok tok ∧
      ∀ r ∈ (DatabaseStorage.regenerateConfirmationToken db e tok).2.waitlistEmails,
        r.email = e → r.confirmationToken = some tok) := by
  refine ⟨?_, ?_, ?_, ?_⟩
  · intro w h
    have hmg : mapGet s.waitlistEmails e = some w := h
    have hreg : MemStorage.regenerateConfirmationToken s e tok =
        (Except.ok tok,
         MemState.mk s.users
           (mapSet s.waitlistEmails e
             ({ w with confirmationToken := some tok }))) := by
      unfold MemStorage.regenerateConfirmationToken
      rw [hmg]
    refine ⟨hreg, ?_, ?_⟩
    · rw [hreg]
      simp [MemStorage.getWaitlistEmail, mapGet_mapSet_self]
    · intro k hk
      rw [hreg]
      simp [MemStorage.getWaitlistEmail,
            mapGet_mapSet_ne s.waitlistEmails e k _ hk]
  · intro h
    have hmg : mapGet s.waitlistEmails e = none := h
    unfold MemStorage.regenerateConfirmationToken
    rw [hmg]
  · intro db hno
    have hany : db.waitlistEmails.any (fun r => r.email == e) = false := by
      rw [← Bool.not_eq_true, List.any_eq_true]
      intro hex
      obtain ⟨r, hr, hre⟩ := hex
      exact hno ⟨r, hr, by simpa using hre⟩
    unfold DatabaseStorage.regenerateConfirmationToken
    rw [if_neg (by simp [hany])]
  · intro db hex
    obtain ⟨r₀, hr₀, hre₀⟩ := hex
    have hany : db.waitlistEmails.any (fun r => r.email == e) = true := by
      rw [List.any_eq_true]
      exact ⟨r₀, hr₀, by simp [hre₀]⟩
    constructor
    · unfold DatabaseStorage.regenerateConfirmationToken
      rw [if_pos hany]
    · intro r hr hre
      unfold DatabaseStorage.regenerateConfirmationToken at hr
      rw [if_pos hany] at hr
      simp only at hr
      rcases List.mem_map.mp hr with ⟨r₁, hr₁, hmap⟩
      by_cases hhit : (r₁.email == e) = true
      · rw [if_pos hhit] at hmap
        rw [← hmap]
      · rw [if_neg hhit] at hmap
        exfalso
        rw [← hmap] at hre
        simp [hre] at hhit

/-- Witness for C9: regenerating the sample entry's token yields the new
token and stores it; on an empty store it fails with "Email not found". -/
theorem c9_witness :
    MemStorage.getWaitlistEmail
        (MemStorage.regenerateConfirmationToken sampleUnconfirmed
          "a@b.com" "tokB").2 "a@b.com" =
      some { sampleEntry with confirmationToken := some "tokB" } ∧
    MemStorage.regenerateConfirmationToken emptyMemState "a@b.com" "tokB" =
      (Except.error "Email not found", emptyMemState) :=
  ⟨((c9 sampleUnconfirmed "a@b.com" "tokB").1 sampleEntry (by decide)).2.1,
   (c9 emptyMemState "a@b.com" "tokB").2.1 rfl⟩

/-! ### Claim C10 -/

/-- Claim C10: `confirmEmail` touches at most the first entry whose token
matches and which is unconfirmed: the users map is untouched; with no
match nothing changes; with a match the matched key holds the updated
entry and every other key reads exactly as before.  In the persistent
implementation the users table is untouched and every row the conditional
update does not hit is returned unchanged at its position. -/
theorem c10 (s : MemState) (t : String) (now : Nat)
    (hnd : KeysNodup s.waitlistEmails) :
    (MemStorage.confirmEmail s t now).2.users = s.users ∧
    (findTarget t s.waitlistEmails = none →
      MemStorage.confirmEmail s t now = (none, s)) ∧
    (∀ k w, findTarget t s.waitlistEmails = some (k, w) →
      (MemStorage.confirmEmail s t now).1 =
        some (MemStorage.confirmUpd w now) ∧
      MemStorage.getWaitlistEmail (MemStorage.confirmEmail s t now).2 k =
        some (MemStorage.confirmUpd w now) ∧
      ∀ k', k' ≠ k →
        MemStorage.getWaitlistEmail (MemStorage.confirmEmail s t now).2 k' =
          MemStorage.getWaitlistEmail s k') ∧
    (∀ db : DbState,
      (DatabaseStorage.confirmEmail db t now).2.users = db.users ∧
      ∀ i : Nat,
        ((DatabaseStorage.confirmEmail db t now).2.waitlistEmails)[i]? =
          (db.waitlistEmails[i]?).map
            (fun r => if DatabaseStorage.confirmHit t r then
                        MemStorage.confirmUpd r now
                      else r)) := by
  refine ⟨rfl, ?_, ?_, ?_⟩
  · intro hft
    have hres := confirmList_of_none now hft
    simp [MemStorage.confirmEmail, hres]
  · intro k w hft
    have hfst := confirmList_fst t now s.waitlistEmails
    rw [hft] at hfst
    have hmg := confirmList_mapGet now hnd hft
    refine ⟨by simp [MemStorage.confirmEmail, hfst], ?_, ?_⟩
    · simpa [MemStorage.confirmEmail, MemStorage.getWaitlistEmail]
        using hmg.1
    · intro k' hk'
      simpa [MemStorage.confirmEmail, MemStorage.getWaitlistEmail]
        using hmg.2 k' hk'
  · intro db
    refine ⟨rfl, ?_⟩
    intro i
    simp only [DatabaseStorage.confirmEmail]
    exact List.getElem?_map _ db.waitlistEmails i

/-- Witness for C10 at the sample state: confirming `tokA` updates the
entry under `a@b.com` and no other key. -/
theorem c10_witness :
    MemStorage.getWaitlistEmail
        (MemStorage.confirmEmail sampleUnconfirmed "tokA" 5).2 "a@b.com" =
      some (MemStorage.confirmUpd sampleEntry 5) ∧
    MemStorage.getWaitlistEmail
        (MemStorage.confirmEmail sampleUnconfirmed "tokA" 5).2 "other@x.com" =
      MemStorage.getWaitlistEmail sampleUnconfirmed "other@x.com" :=
  ⟨((c10 sampleUnconfirmed "tokA" 5 (by decide)).2.2.1 "a@b.com" sampleEntry
      (by decide)).2.1,
   ((c10 sampleUnconfirmed "tokA" 5 (by decide)).2.2.1 "a@b.com" sampleEntry
      (by decide)).2.2 "other@x.com" (by decide)⟩

/-! ### Claim C7 -/

/-- Claim C7: POST /api/waitlist answers 400 when the body fails email
validation (state unchanged), 409 when the email is already registered
(state unchanged, no entry created), and otherwise stores the new entry
and answers 201 echoing the submitted email; the stored count grows by
exactly one in the success case. -/
theorem c7 (validate : String → Bool) (s : MemState) (id tok : String)
    (now : Nat) :
    (postWaitlist validate none s id tok now =
      ({ status := 400, message := "Please enter a valid email address" }, s)) ∧
    (∀ e, validate e = false →
      postWaitlist validate (some e) s id tok now =
        ({ status := 400, message := "Please enter a valid email address" }, s)) ∧
    (∀ e w, validate e = true → MemStorage.getWaitlistEmail s e = some w →
      postWaitlist validate (some e) s id tok now =
        ({ status := 409,
           message := "Email already registered for waitlist" }, s)) ∧
    (∀ e, validate e = true → MemStorage.getWaitlistEmail s e = none →
      (postWaitlist validate (some e) s id tok now).1.status = 201 ∧
      (postWaitlist validate (some e) s id tok now).1.email = some e ∧
      MemStorage.getWaitlistEmail
          (postWaitlist validate (some e) s id tok now).2 e =
        some (MemStorage.addToWaitlist s e id tok now).1 ∧
      MemStorage.getWaitlistCount
          (postWaitlist validate (some e) s id tok now).2 =
        MemStorage.getWaitlistCount s + 1) := by
  refine ⟨rfl, ?_, ?_, ?_⟩
  · intro e hv
    simp [postWaitlist, hv]
  · intro e w hv h
    simp [postWaitlist, hv, h]
  · intro e hv h
    have hmg : mapGet s.waitlistEmails e = none := h
    have hnotmem : e ∉ keysOf s.waitlistEmails := (mapGet_eq_none_iff _ _).mp h
    refine ⟨?_, ?_, ?_, ?_⟩
    · simp [postWaitlist, hv, h, hmg]
    · simp [postWaitlist, hv, h, hmg, MemStorage.addToWaitlist]
    · simp [postWaitlist, hv, h, hmg, MemStorage.addToWaitlist,
            MemStorage.getWaitlistEmail, mapGet_mapSet_self]
    · simp [postWaitlist, hv, h, hmg, MemStorage.addToWaitlist,
            MemStorage.getWaitlistCount, length_mapSet, hnotmem]

/-- Witness for C7 at concrete inputs: an invalid body, a duplicate
email, and a fresh signup. -/
theorem c7_witness :
    postWaitlist (fun _ => false) (some "bad-email") emptyMemState
        "id1" "tokA" 0 =
      ({ status := 400, message := "Please enter a valid email address" },
       emptyMemState) ∧
    postWaitlist (fun _ => true) (some "a@b.com") sampleUnconfirmed
        "id2" "tokB" 1 =
      ({ status := 409, message := "Email already registered for waitlist" },
       sampleUnconfirmed) ∧
    (postWaitlist (fun _ => true) (some "c@d.com") sampleUnconfirmed
        "id2" "tokB" 1).1.status = 201 ∧
    MemStorage.getWaitlistCount
        (postWaitlist (fun _ => true) (some "c@d.com") sampleUnconfirmed
          "id2" "tokB" 1).2 = 2 :=
  ⟨(c7 (fun _ => false) emptyMemState "id1" "tokA" 0).2.1 "bad-email" rfl,
   (c7 (fun _ => true) sampleUnconfirmed "id2" "tokB" 1).2.2.1 "a@b.com"
     sampleEntry rfl (by decide),
   ((c7 (fun _ => true) sampleUnconfirmed "id2" "tokB" 1).2.2.2 "c@d.com"
     rfl (by decide)).1,
   ((c7 (fun _ => true) sampleUnconfirmed "id2" "tokB" 1).2.2.2 "c@d.com"
     rfl (by decide)).2.2.2⟩

/-! ### Claim C8 -/

/-- Claim C8: POST /api/waitlist/resend-confirmation for a validly-formed
email whose waitlist entry is already confirmed answers 400 with the
specific "Email is already confirmed" message and leaves the storage
unchanged — no token is regenerated. -/
theorem c8 (validate : String → Bool) (s : MemState)
    (e newToken : String) (isDev : Bool) (w : WaitlistEmail)
    (hv : validate e = true) (h : MemStorage.getWaitlistEmail s e = some w)
    (hc : w.confirmed = true) :
    postResendConfirmation validate (some e) s newToken isDev =
      ({ status := 400, message := "Email is already confirmed" }, s) := by
  simp [postResendConfirmation, hv, h, hc]

/-- Witness for C8: resending for the confirmed sample entry is rejected
with the specific message and the state is untouched. -/
theorem c8_witness :
    postResendConfirmation (fun _ => true) (some "a@b.com") sampleConfirmed
        "tokB" true =
      ({ status := 400, message := "Email is already confirmed" },
       sampleConfirmed) :=
  c8 (fun _ => true) sampleConfirmed "a@b.com" "tokB" true
    sampleConfirmedEntry rfl (by decide) (by decide)

end Waitlist
